import Mathlib

/-!
Shallow embedding of the NekoFlare UCB scanner (`src/app.py`).

Conventions of the embedding:
* Python floats are modelled as exact rationals (`ℚ`); the real-valued UCB
  score (which uses `sqrt` and `log`) is modelled over `ℝ`.
* The mutable `self.data` dictionary of `UCBManager` is modelled as an
  explicit state record; `subnets` is an insertion-ordered association list,
  matching Python `dict` semantics (`lookupKey` = `dict.get`,
  `setKey` = `dict[k] = v`, replacing the first matching key in place).
* IP addresses are carried by their numeric value together with their
  address family (`Addr`); the string rendering used for group keys is
  `ipv4Str`.
* The global `random` module is modelled by an oracle (`RandOracle`)
  supplying the raw draw sequence; `random.shuffle` and the score sort of
  the warm path are oracle functions, constrained by permutation /
  sortedness hypotheses in the theorems that need them.
* The unbounded `while` loop of the cold-start path is given an explicit
  fuel parameter; `none` means the loop was still running after `fuel`
  sweeps (the Python loop has no such bound).
-/

/-- One bandit arm, `{"count": float, "total_reward": float}`
(`src/app.py`, line 117). -/
structure GroupRecord where
  count : ℚ
  total_reward : ℚ
deriving DecidableEq

/-- The persistent model state: `self.decay_rate` together with the
`self.data` dictionary of `UCBManager` (`src/app.py`, lines 48-59);
`total_runs` is the spec's `totalSamples`. -/
structure UCBManager where
  decay_rate : ℚ
  total_runs : ℚ
  launch_count : ℕ
  subnets : List (String × GroupRecord)
deriving DecidableEq

/-- Python dictionary read `self.data["subnets"].get(net)`. -/
def lookupKey : List (String × GroupRecord) → String → Option GroupRecord
  | [], _ => none
  | (k', v) :: rest, k => if k' = k then some v else lookupKey rest k

/-- Python dictionary write `self.data["subnets"][net] = v`: replaces the
value at an existing key in place, otherwise appends the new binding. -/
def setKey : List (String × GroupRecord) → String → GroupRecord → List (String × GroupRecord)
  | [], k, v => [(k, v)]
  | (k', v') :: rest, k, v =>
    if k' = k then (k, v) :: rest else (k', v') :: setKey rest k v

/-- An address value by family and numeric value (the strings the program
passes around are the decimal/hexadecimal renderings of these). -/
inductive Addr where
  | v4 (x : ℕ)
  | v6 (x : ℕ)
deriving DecidableEq

/-- Dotted-quad rendering of a 32-bit IPv4 value,
`str(ipaddress.IPv4Network(...).network_address)`. -/
def ipv4Str (x : ℕ) : String :=
  toString (x / 16777216 % 256) ++ "." ++ toString (x / 65536 % 256) ++ "."
    ++ toString (x / 256 % 256) ++ "." ++ toString (x % 256)

/-- `src/app.py` lines 101-104: IPv6 addresses are rejected (`':' in ip`),
an IPv4 address is reduced to the base address of its /24 network (the last
octet is zeroed). -/
def ipToNet : Addr → Option String
  | .v4 x => some (ipv4Str (x / 256 * 256))
  | .v6 _ => none

/-- The reward computation of `UCBManager.update` (`src/app.py`,
lines 106-114). -/
def currentReward (latency speed : ℚ) (is_loss tcp_only : Bool) : ℚ :=
  if is_loss then 0
  else
    let r_latency := 0.3 * (1 - min (max (latency - 50) 0 / 150) 1)
    if tcp_only then r_latency
    else r_latency + 0.7 * min (speed / 10) 1

/-- `UCBManager.update` (`src/app.py`, lines 100-128): reduce the address to
its /24 group (silent no-op for IPv6), compute the reward, apply the outlier
dampening weight (0.2 instead of 1.0 when `count > 2.0`, the existing
average exceeds 0.6 and the new reward is below 0.1), and add the weighted
sample to the group record and to `total_runs`. -/
def UCBManager.update (m : UCBManager) (ip : Addr) (latency speed : ℚ)
    (is_loss tcp_only : Bool) : UCBManager :=
  match ipToNet ip with
  | none => m
  | some net =>
    let cr := currentReward latency speed is_loss tcp_only
    let record := (lookupKey m.subnets net).getD ⟨0, 0⟩
    let impact_weight : ℚ :=
      if 2 < record.count then
        if 0.6 < record.total_reward / record.count ∧ cr < 0.1 then 0.2 else 1
      else 1
    { m with
      subnets := setKey m.subnets net
        ⟨record.count + impact_weight, record.total_reward + cr * impact_weight⟩
      total_runs := m.total_runs + impact_weight }

/-- `UCBManager.save` (`src/app.py`, lines 68-87), the state transition of
the spec's `decayAndPersist`: scale `total_runs` and every record by
`decay_rate`, then drop every record with post-decay `count < 0.5` and
post-decay average reward below 0.2 (the average is `0` when `count ≤ 0`).
The durable write itself is I/O and outside the state model. -/
def UCBManager.save (m : UCBManager) : UCBManager :=
  let decayed := m.subnets.map fun p =>
    (p.1, GroupRecord.mk (p.2.count * m.decay_rate) (p.2.total_reward * m.decay_rate))
  let kept := decayed.filter fun p =>
    let avg := if 0 < p.2.count then p.2.total_reward / p.2.count else 0
    decide (¬ (p.2.count < 0.5 ∧ avg < 0.2))
  { m with total_runs := m.total_runs * m.decay_rate, subnets := kept }

/-- `UCBManager.is_cold_start` (`src/app.py`, lines 89-98). -/
def UCBManager.is_cold_start (m : UCBManager) : Bool :=
  decide (m.launch_count ≤ 3 ∨ m.subnets.length < 100)

/-- `UCBManager.get_score` (`src/app.py`, lines 130-140): the 9999 sentinel
for an absent or nearly-unexplored group, otherwise the UCB value
`avg_reward + sqrt(2 * log(max(total_runs, 1)) / count)`. -/
noncomputable def UCBManager.get_score (m : UCBManager) (subnet_ip : String) : ℝ :=
  match lookupKey m.subnets subnet_ip with
  | none => 9999
  | some record =>
    if record.count < 0.1 then 9999
    else
      ((record.total_reward : ℝ) / (record.count : ℝ))
        + Real.sqrt (2 * Real.log (max (m.total_runs : ℝ) 1) / (record.count : ℝ))

/-- An IPv4 network (or, for the IPv6 append step, an IPv6 range of which
only `base` is used): `base` is the numeric network address, `prefixlen`
the prefix length. -/
structure Net where
  base : ℕ
  prefixlen : ℕ
deriving DecidableEq

/-- `sn.num_addresses` of an IPv4 network. -/
def Net.num_addresses (n : Net) : ℕ := 2 ^ (32 - n.prefixlen)

/-- `src/app.py` lines 221-227: a range wider than /24 is expanded into its
/24 subnets (`net.subnets(new_prefix=24)`), a narrower one stays as-is. -/
def expand24 (n : Net) : List Net :=
  if n.prefixlen < 24 then
    (List.range (2 ^ (24 - n.prefixlen))).map fun i => ⟨n.base + i * 256, 24⟩
  else [n]

/-- The `all_subnets` list built by `SmartGenerator.generate`. -/
def allSubnets (cidrs_v4 : List Net) : List Net := (cidrs_v4.map expand24).flatten

/-- The source of randomness of the `random` module, as an oracle: `ints k`
is the raw entropy behind the `k`-th `random.randint`/`random.choice` call
(reduced into range by `randint`), `floats k` the value of the `k`-th
`random.random()` call, `shuffleNets`/`shuffleAddrs` the two
`random.shuffle` calls, and `sortScored` the descending-by-score reordering
`scored_subnets.sort(key=lambda x: x[0], reverse=True)` of the warm path
(kept abstract because the scores are real-valued; theorems that depend on
the order constrain it explicitly). -/
structure RandOracle where
  ints : ℕ → ℕ
  floats : ℕ → ℚ
  shuffleNets : List Net → List Net
  shuffleAddrs : List Addr → List Addr
  sortScored : List Net → List Net

/-- `random.randint(lo, hi)` (both bounds inclusive) fed from raw entropy. -/
def randint (raw lo hi : ℕ) : ℕ := lo + raw % (hi + 1 - lo)

/-- One pass of the inner `for sn in all_subnets` loop of the cold-start
path (`src/app.py` lines 241-245): stop once the target count is reached,
and pick one random host per subnet that has more than 2 addresses. -/
def sweepOnce (ints : ℕ → ℕ) (max_total_count : ℕ) :
    List Net → ℕ → List ℕ → List ℕ × ℕ
  | [], ctr, targets => (targets, ctr)
  | sn :: rest, ctr, targets =>
    if max_total_count ≤ targets.length then (targets, ctr)
    else if 2 < sn.num_addresses then
      sweepOnce ints max_total_count rest (ctr + 1)
        (targets ++ [sn.base + randint (ints ctr) 1 (sn.num_addresses - 2)])
    else sweepOnce ints max_total_count rest ctr targets

/-- The cold-start `while len(targets) < max_total_count` loop
(`src/app.py` lines 240-252) with explicit fuel (one unit per sweep);
`none` means the loop was still running after `fuel` sweeps.  After a
sweep the loop stops when the target count is reached, or when the safety
guard `len(all_subnets) * 254 < max_total_count and
len(targets) >= len(all_subnets) * 250` fires. -/
def coldLoop (ints : ℕ → ℕ) (all_subnets : List Net) (max_total_count : ℕ) :
    ℕ → ℕ → List ℕ → Option (List ℕ × ℕ)
  | 0, _, _ => none
  | fuel + 1, ctr, targets =>
    if max_total_count ≤ targets.length then some (targets, ctr)
    else
      let s := sweepOnce ints max_total_count all_subnets ctr targets
      if max_total_count ≤ s.1.length then some s
      else if all_subnets.length * 254 < max_total_count ∧
          all_subnets.length * 250 ≤ s.1.length then some s
      else coldLoop ints all_subnets max_total_count fuel s.2 s.1

/-- The `for _ in range(5)` retry loop of the warm path (`src/app.py`
lines 292-298): up to 5 random draws to find a host not yet picked within
this group; the first fresh draw is returned. -/
def attemptPick (ints : ℕ → ℕ) (sn : Net) : ℕ → ℕ → List ℕ → Option ℕ × ℕ
  | 0, ctr, _ => (none, ctr)
  | a + 1, ctr, picked =>
    let rip := sn.base + randint (ints ctr) 1 (sn.num_addresses - 2)
    if rip ∈ picked then attemptPick ints sn a (ctr + 1) picked
    else (some rip, ctr + 1)

/-- The `for _ in range(real_count)` slot loop of the warm path
(`src/app.py` lines 290-298), returning the picked hosts in emission
order together with the advanced draw counter. -/
def pickGroup (ints : ℕ → ℕ) (sn : Net) : ℕ → ℕ → List ℕ → List ℕ × ℕ
  | 0, ctr, _ => ([], ctr)
  | slots + 1, ctr, picked =>
    match attemptPick ints sn 5 ctr picked with
    | (some rip, ctr') =>
      let r := pickGroup ints sn slots ctr' (rip :: picked)
      (rip :: r.1, r.2)
    | (none, ctr') => pickGroup ints sn slots ctr' picked

/-- The per-rank quota of the warm path (`src/app.py` lines 272-286):
top 5% of ranks get 5, the next 15% get 3, the next 30% get 1, and the
bottom half gets 0 unless the 1% revival draw fires. -/
def tierQuota (rank total_subnets : ℕ) (draw : ℚ) : ℕ :=
  if (rank : ℚ) < (total_subnets : ℚ) * 0.05 then 5
  else if (rank : ℚ) < (total_subnets : ℚ) * 0.20 then 3
  else if (rank : ℚ) < (total_subnets : ℚ) * 0.50 then 1
  else if draw < 0.01 then 1 else 0

/-- Whether the rank falls in the bottom half, where (and only where) the
code consumes one `random.random()` draw. -/
def usesDraw (rank total_subnets : ℕ) : Bool :=
  decide ((total_subnets : ℚ) * 0.50 ≤ (rank : ℚ))

/-- The `for rank, (score, sn) in enumerate(scored_subnets)` loop of the
warm path (`src/app.py` lines 269-298): before each group the cap
`generated_count >= max_total_count` is checked (and only there); a group
with a positive quota emits up to
`real_count = min(count, num_addresses - 2)` (or 1 when the subnet has at
most 2 addresses) fresh random hosts. -/
def warmLoop (ints : ℕ → ℕ) (floats : ℕ → ℚ) (total_subnets max_total_count : ℕ) :
    List Net → ℕ → ℕ → ℕ → ℕ → List ℕ → List ℕ
  | [], _, _, _, _, targets => targets
  | sn :: rest, rank, ictr, fctr, generated_count, targets =>
    if max_total_count ≤ generated_count then targets
    else
      let count := tierQuota rank total_subnets (floats fctr)
      let fctr' := if usesDraw rank total_subnets then fctr + 1 else fctr
      if 0 < count then
        let real_count := if 2 < sn.num_addresses then min count (sn.num_addresses - 2) else 1
        let r := pickGroup ints sn real_count ictr []
        warmLoop ints floats total_subnets max_total_count rest (rank + 1) r.2 fctr'
          (generated_count + r.1.length) (targets ++ r.1)
      else
        warmLoop ints floats total_subnets max_total_count rest (rank + 1) ictr fctr'
          generated_count targets

/-- The IPv6 append step (`src/app.py` lines 303-308): `limit` times, pick
a random IPv6 range (`random.choice`) and a random host offset in
`[1, 2^16]` inside it. -/
def v6Targets (ints : ℕ → ℕ) (cidrs_v6 : List Net) : ℕ → ℕ → List Addr
  | _, 0 => []
  | ctr, k + 1 =>
    let cidr := cidrs_v6.getD (ints ctr % cidrs_v6.length) ⟨0, 0⟩
    Addr.v6 (cidr.base + randint (ints (ctr + 1)) 1 65536)
      :: v6Targets ints cidrs_v6 (ctr + 2) k

/-- `SmartGenerator.generate` (`src/app.py` lines 215-312): expand the
IPv4 ranges to /24 groups, then run either the cold-start sweep loop
(shuffled groups, fuel-bounded) or the warm UCB-tier loop (groups in
descending score order), append the IPv6 draws when IPv6 ranges are
supplied (`0.1 * max_total_count` of them), and shuffle the result. -/
def SmartGenerator.generate (cidrs_v4 cidrs_v6 : List Net) (max_total_count : ℕ)
    (ucb : UCBManager) (o : RandOracle) (fuel : ℕ) : Option (List Addr) :=
  let all_subnets := allSubnets cidrs_v4
  let v4res : Option (List ℕ × ℕ) :=
    if ucb.is_cold_start then
      coldLoop o.ints (o.shuffleNets all_subnets) max_total_count fuel 0 []
    else
      let sorted := o.sortScored all_subnets
      some (warmLoop o.ints o.floats sorted.length max_total_count sorted 0 0 0 0 [], 0)
  match v4res with
  | none => none
  | some (v4s, ctr) =>
    let targets := v4s.map Addr.v4
    let targets :=
      if cidrs_v6 = [] then targets
      else targets ++
        v6Targets o.ints cidrs_v6 ctr (((max_total_count : ℚ) * 0.1).floor.toNat)
    some (o.shuffleAddrs targets)

/-- One probe result (`IpResult`, `src/app.py` lines 318-327). -/
structure IpResult where
  ip : Addr
  latency : ℚ
  speed : ℚ
  loss : Bool
deriving DecidableEq

/-- Stable insertion into a list sorted by descending `speed` (the element
goes before the first strictly slower one). -/
def insertSpeedDesc (x : IpResult) : List IpResult → List IpResult
  | [] => [x]
  | y :: ys => if y.speed ≤ x.speed then x :: y :: ys else y :: insertSpeedDesc x ys

/-- `final.sort(key=lambda x: x.speed, reverse=True)` (`src/app.py`
line 406): a stable descending sort by measured speed. -/
def sortSpeedDesc : List IpResult → List IpResult
  | [] => []
  | x :: xs => insertSpeedDesc x (sortSpeedDesc xs)

/-- The measuring loop of `Scanner.smart_speed_test` (`src/app.py`
lines 396-401): the `i`-th candidate's `speed` field is set to the outcome
`http i` of its throughput probe (`self._http`, 0 on failure). -/
def applySpeeds (http : ℕ → ℚ) : ℕ → List IpResult → List IpResult
  | _, [] => []
  | i, r :: rs => { r with speed := http i } :: applySpeeds http (i + 1) rs

/-- The selection step of `Scanner.smart_speed_test` (`src/app.py`
lines 393-410) on the measured candidates: keep those with
`speed > 0.1` (`final`), sort them by descending speed, take those meeting
`min_speed_target` (`high_quality`), and if fewer than 5 qualify, backfill
from the remaining members of `final` in sorted order. -/
def Scanner.selectFinal (measured : List IpResult) (min_speed_target : ℚ) : List IpResult :=
  let final := measured.filter fun r => decide (0.1 < r.speed)
  let finalSorted := sortSpeedDesc final
  let high_quality := finalSorted.filter fun r => decide (min_speed_target ≤ r.speed)
  if high_quality.length < 5 then
    high_quality ++
      (finalSorted.filter fun r => decide (r ∉ high_quality)).take (5 - high_quality.length)
  else high_quality

/-- `Scanner.smart_speed_test` (`src/app.py` lines 385-425) as a state
function: measure the Stage-2 candidates, then select the final set; the
same selected list is printed, logged and written to `result.csv`. -/
def Scanner.smart_speed_test (cands : List IpResult) (http : ℕ → ℚ)
    (min_speed_target : ℚ) : List IpResult :=
  Scanner.selectFinal (applySpeeds http 0 cands) min_speed_target

/-- Modelled from the spec: the Stage-2 selection policy exactly as claim
C7 words it — the primary set is every probed candidate whose throughput
meets `min_speed_target`, and the backfill draws from all remaining probed
candidates in descending order of throughput (no `0.1 MB/s` floor).  Used
only to compare the claimed policy with the implemented one. -/
def specSelect (measured : List IpResult) (min_speed_target : ℚ) : List IpResult :=
  let sorted := sortSpeedDesc measured
  let primary := sorted.filter fun r => decide (min_speed_target ≤ r.speed)
  if primary.length < 5 then
    primary ++ (sorted.filter fun r => decide (r ∉ primary)).take (5 - primary.length)
  else primary

theorem lookupKey_setKey_self (l : List (String × GroupRecord)) (k : String) (v : GroupRecord) :
    lookupKey (setKey l k v) k = some v := by
  induction l with
  | nil => simp [setKey, lookupKey]
  | cons p rest ih =>
    obtain ⟨k', v'⟩ := p
    by_cases h : k' = k
    · simp [setKey, h, lookupKey]
    · simp [setKey, h, lookupKey, ih]

/-- C3: `recordOutcome` computes the reward of every outcome as: 0 when
lost; otherwise `latencyScore = 0.3 * (1 - clamp((latencyMs - 50)/150, 0, 1))`,
which is the entire reward when `tcp_only`, and
`latencyScore + 0.7 * clamp(throughputMBps / 10, 0, 1)` otherwise (every
measured throughput is nonnegative); in particular `latency = 50` with
`tcp_only` gives 0.3, `latency ≥ 200` with `tcp_only` gives 0,
`latency = 50` and `speed = 10` without `tcp_only` gives 1, and a loss
gives 0 regardless of the other inputs. -/
theorem C3_reward_formula :
    (∀ (latency speed : ℚ) (tcp_only : Bool),
      currentReward latency speed true tcp_only = 0)
  ∧ (∀ latency speed : ℚ,
      currentReward latency speed false true
        = 0.3 * (1 - min (max ((latency - 50) / 150) 0) 1))
  ∧ (∀ latency speed : ℚ, 0 ≤ speed →
      currentReward latency speed false false
        = 0.3 * (1 - min (max ((latency - 50) / 150) 0) 1)
          + 0.7 * min (max (speed / 10) 0) 1)
  ∧ (∀ speed : ℚ, currentReward 50 speed false true = 0.3)
  ∧ (∀ latency : ℚ, 200 ≤ latency → currentReward latency 0 false true = 0)
  ∧ currentReward 50 10 false false = 1 := by
  have hclamp : ∀ latency : ℚ,
      max (latency - 50) 0 / 150 = max ((latency - 50) / 150) 0 := by
    intro latency
    rw [show max ((latency - 50) / 150) 0 = max ((latency - 50) / 150) (0 / 150) by norm_num]
    rw [max_div_div_right (by norm_num : (0:ℚ) ≤ 150)]
  refine ⟨?_, ?_, ?_, ?_, ?_, ?_⟩
  · intro latency speed tcp_only; simp [currentReward]
  · intro latency speed; simp only [currentReward, Bool.false_eq_true, if_false, if_true,
      Bool.true_eq, hclamp]
  · intro latency speed hs
    simp only [currentReward, Bool.false_eq_true, if_false, hclamp]
    rw [max_eq_left (by positivity : (0:ℚ) ≤ speed / 10)]
  · intro speed; norm_num [currentReward]
  · intro latency hl
    have h1 : max (latency - 50) 0 = latency - 50 :=
      max_eq_left (by linarith)
    have h2 : min ((latency - 50) / 150) 1 = 1 := by
      rw [min_eq_right]; rw [le_div_iff₀ (by norm_num : (0:ℚ) < 150)]; linarith
    simp only [currentReward, Bool.false_eq_true, if_false, if_true, h1]
    rw [div_eq_mul_inv, ← div_eq_mul_inv, h2]
    ring
  · norm_num [currentReward]

/-- Witness for C3 at concrete inputs: the untruncated-speed conjunct at
`latency = 250, speed = 3` and the high-latency conjunct at
`latency = 250`. -/
theorem C3_witness :
    ((0:ℚ) ≤ 3
      ∧ currentReward 250 3 false false
          = 0.3 * (1 - min (max (((250:ℚ) - 50) / 150) 0) 1) + 0.7 * min (max ((3:ℚ) / 10) 0) 1)
  ∧ ((200:ℚ) ≤ 250 ∧ currentReward 250 0 false true = 0) :=
  ⟨⟨by norm_num, C3_reward_formula.2.2.1 250 3 (by norm_num)⟩,
   ⟨by norm_num, C3_reward_formula.2.2.2.2.1 250 (by norm_num)⟩⟩

/-- C2 counterexample: a group with one sample of reward 0.9 (average
0.9 > 0.6, count 1) receives a lost outcome (reward 0 < 0.1).  The claim
mandates impact weight 0.2 (count 1 → 1.2), but the code also requires
`count > 2.0`, so it applies weight 1.0 and the count becomes 2. -/
theorem C2_counterexample :
    lookupKey ((UCBManager.mk 0.85 0 1 [("1.2.3.0", ⟨1, 0.9⟩)]).update
        (Addr.v4 16909060) 500 0 true true).subnets "1.2.3.0"
      = some ⟨2, 0.9⟩
    ∧ ((2 : ℚ) ≠ 1 + 0.2)
    ∧ currentReward 500 0 true true < 0.1
    ∧ (0.6 : ℚ) < 0.9 / 1 := by
  have hnet : ipToNet (Addr.v4 16909060) = some "1.2.3.0" := rfl
  refine ⟨?_, by norm_num, by norm_num [currentReward], by norm_num⟩
  unfold UCBManager.update
  rw [hnet]
  norm_num [lookupKey, setKey, currentReward]

/-- C2 amended: for every `recordOutcome` call on a group whose count
exceeds 2.0 and whose existing average reward exceeds 0.6, when the newly
computed reward is below 0.1 the sample is applied with impact weight 0.2:
the count grows by exactly 0.2, the total reward by 0.2 times the new
reward, and `total_runs` by 0.2. -/
theorem C2_dampening_amended (m : UCBManager) (ip : Addr) (latency speed : ℚ)
    (is_loss tcp_only : Bool) (net : String) (r : GroupRecord)
    (hnet : ipToNet ip = some net) (hr : lookupKey m.subnets net = some r)
    (hcount : 2 < r.count) (havg : 0.6 < r.total_reward / r.count)
    (hrew : currentReward latency speed is_loss tcp_only < 0.1) :
    lookupKey (m.update ip latency speed is_loss tcp_only).subnets net
      = some ⟨r.count + 0.2,
              r.total_reward + currentReward latency speed is_loss tcp_only * 0.2⟩
    ∧ (m.update ip latency speed is_loss tcp_only).total_runs = m.total_runs + 0.2 := by
  unfold UCBManager.update
  rw [hnet]
  simp only [hr, Option.getD_some]
  rw [if_pos hcount, if_pos ⟨havg, hrew⟩]
  exact ⟨lookupKey_setKey_self m.subnets net _, rfl⟩

/-- Witness for C2 (amended): a group at count 3, total reward 2.1
(average 0.7) receiving a lost outcome is updated with weight 0.2. -/
theorem C2_witness :
    lookupKey ((UCBManager.mk 0.85 7 1 [("1.2.3.0", ⟨3, 2.1⟩)]).update
        (Addr.v4 16909060) 500 0 true true).subnets "1.2.3.0"
      = some ⟨3 + 0.2, 2.1 + currentReward 500 0 true true * 0.2⟩
    ∧ ((UCBManager.mk 0.85 7 1 [("1.2.3.0", ⟨3, 2.1⟩)]).update
        (Addr.v4 16909060) 500 0 true true).total_runs = 7 + 0.2 :=
  C2_dampening_amended (UCBManager.mk 0.85 7 1 [("1.2.3.0", ⟨3, 2.1⟩)])
    (Addr.v4 16909060) 500 0 true true "1.2.3.0" ⟨3, 2.1⟩
    rfl rfl (by norm_num) (by norm_num) (by norm_num [currentReward])

/-- C9: every mutation of `total_runs` happens in lockstep with the group
count mutations, with the same weight: a `recordOutcome` call either
leaves the model untouched (non-IPv4 address) or adds one weight
`w ∈ {1, 0.2}` both to the group's count and to `total_runs` (and `w`
times the reward to the group's total reward); and `save` scales
`total_runs` and every surviving record's count (and total reward) by the
same factor `decay_rate`. -/
theorem C9_lockstep :
    (∀ (m : UCBManager) (ip : Addr) (latency speed : ℚ) (is_loss tcp_only : Bool),
      ipToNet ip = none → m.update ip latency speed is_loss tcp_only = m)
  ∧ (∀ (m : UCBManager) (ip : Addr) (latency speed : ℚ) (is_loss tcp_only : Bool)
      (net : String), ipToNet ip = some net →
      ∃ w : ℚ, (w = 1 ∨ w = 0.2)
        ∧ (m.update ip latency speed is_loss tcp_only).total_runs = m.total_runs + w
        ∧ lookupKey (m.update ip latency speed is_loss tcp_only).subnets net
            = some ⟨((lookupKey m.subnets net).getD ⟨0, 0⟩).count + w,
                    ((lookupKey m.subnets net).getD ⟨0, 0⟩).total_reward
                      + currentReward latency speed is_loss tcp_only * w⟩)
  ∧ (∀ m : UCBManager, m.save.total_runs = m.total_runs * m.decay_rate)
  ∧ (∀ (m : UCBManager) (net : String) (r' : GroupRecord),
      (net, r') ∈ m.save.subnets →
      ∃ r : GroupRecord, (net, r) ∈ m.subnets
        ∧ r'.count = r.count * m.decay_rate
        ∧ r'.total_reward = r.total_reward * m.decay_rate) := by
  refine ⟨?_, ?_, ?_, ?_⟩
  · intro m ip latency speed is_loss tcp_only hnone
    unfold UCBManager.update
    rw [hnone]
  · intro m ip latency speed is_loss tcp_only net hnet
    refine ⟨if 2 < ((lookupKey m.subnets net).getD ⟨0, 0⟩).count then
        if 0.6 < ((lookupKey m.subnets net).getD ⟨0, 0⟩).total_reward
              / ((lookupKey m.subnets net).getD ⟨0, 0⟩).count
            ∧ currentReward latency speed is_loss tcp_only < 0.1 then 0.2 else 1
      else 1, ?_, ?_, ?_⟩
    · split
      · split
        · exact Or.inr rfl
        · exact Or.inl rfl
      · exact Or.inl rfl
    · unfold UCBManager.update
      rw [hnet]
    · unfold UCBManager.update
      rw [hnet]
      exact lookupKey_setKey_self m.subnets net _
  · intro m; rfl
  · intro m net r' hmem
    unfold UCBManager.save at hmem
    simp only [List.mem_filter, List.mem_map, Prod.mk.injEq] at hmem
    obtain ⟨⟨⟨net₀, r⟩, hr, hk, hv⟩, -⟩ := hmem
    subst hk
    subst hv
    exact ⟨r, hr, rfl, rfl⟩

/-- Witness for C9: the non-IPv4 no-op conjunct at a concrete model and
IPv6 address, together with the `save` scaling conjunct. -/
theorem C9_witness :
    (UCBManager.mk 0.85 7 1 [("1.2.3.0", ⟨3, 2.1⟩)]).update (Addr.v6 5) 1 0 false true
      = UCBManager.mk 0.85 7 1 [("1.2.3.0", ⟨3, 2.1⟩)]
    ∧ (UCBManager.mk 0.85 7 1 [("1.2.3.0", ⟨3, 2.1⟩)]).save.total_runs = 7 * 0.85 :=
  ⟨C9_lockstep.1 (UCBManager.mk 0.85 7 1 [("1.2.3.0", ⟨3, 2.1⟩)]) (Addr.v6 5) 1 0 false true rfl,
   C9_lockstep.2.2.1 (UCBManager.mk 0.85 7 1 [("1.2.3.0", ⟨3, 2.1⟩)])⟩

/-- C4: `save` (the spec's `decayAndPersist`) scales `total_runs` by
`decay_rate`; a pair survives into the new `subnets` exactly when it is the
decayed image of an old record and does not satisfy the removal condition
(post-decay `count < 0.5` and post-decay average reward `< 0.2`, the
average being 0 for nonpositive count); every group whose decayed record
has `count ≥ 0.5` or average reward `≥ 0.2` survives; and with
`0 < decay_rate < 1` every surviving record's count is the old count
scaled by `decay_rate`, hence strictly smaller (and still positive) when
the old count was positive. -/
theorem C4_decay (m : UCBManager) (hd0 : 0 < m.decay_rate) (hd1 : m.decay_rate < 1) :
    m.save.total_runs = m.total_runs * m.decay_rate
  ∧ (∀ (net : String) (r' : GroupRecord),
      (net, r') ∈ m.save.subnets ↔
        (∃ r : GroupRecord, (net, r) ∈ m.subnets
            ∧ r' = ⟨r.count * m.decay_rate, r.total_reward * m.decay_rate⟩)
          ∧ ¬ (r'.count < 0.5
                ∧ (if 0 < r'.count then r'.total_reward / r'.count else 0) < 0.2))
  ∧ (∀ (net : String) (r : GroupRecord), (net, r) ∈ m.subnets →
      (0.5 ≤ r.count * m.decay_rate
        ∨ 0.2 ≤ (if 0 < r.count * m.decay_rate
            then r.total_reward * m.decay_rate / (r.count * m.decay_rate) else 0)) →
      (net, (⟨r.count * m.decay_rate, r.total_reward * m.decay_rate⟩ : GroupRecord))
        ∈ m.save.subnets)
  ∧ (∀ (net : String) (r' : GroupRecord), (net, r') ∈ m.save.subnets →
      ∃ r : GroupRecord, (net, r) ∈ m.subnets
        ∧ r'.count = r.count * m.decay_rate
        ∧ (0 < r.count → r'.count < r.count)
        ∧ (0 < r.count → 0 < r'.count)) := by
  refine ⟨rfl, ?_, ?_, ?_⟩
  · intro net r'
    unfold UCBManager.save
    simp only [List.mem_filter, List.mem_map, decide_eq_true_eq, Prod.mk.injEq]
    constructor
    · rintro ⟨⟨⟨n₀, r⟩, hr, hk, hv⟩, hf⟩
      subst hk
      subst hv
      exact ⟨⟨r, hr, rfl⟩, hf⟩
    · rintro ⟨⟨r, hr, rfl⟩, hf⟩
      exact ⟨⟨(net, r), hr, rfl, rfl⟩, hf⟩
  · intro net r hr hsurv
    unfold UCBManager.save
    simp only [List.mem_filter, List.mem_map, decide_eq_true_eq, Prod.mk.injEq]
    refine ⟨⟨(net, r), hr, rfl, rfl⟩, ?_⟩
    rintro ⟨h1, h2⟩
    rcases hsurv with h | h
    · linarith
    · linarith
  · intro net r' hmem
    unfold UCBManager.save at hmem
    simp only [List.mem_filter, List.mem_map, Prod.mk.injEq] at hmem
    obtain ⟨⟨⟨n₀, r⟩, hr, hk, hv⟩, -⟩ := hmem
    subst hk
    subst hv
    exact ⟨r, hr, rfl,
      fun hc => mul_lt_of_lt_one_right hc hd1,
      fun hc => mul_pos hc hd0⟩

/-- Witness for C4: with decay rate 1/2, a group at count 2 and total
reward 1.6 survives (post-decay count 1 ≥ 0.5) with both fields halved,
and `total_runs` is halved. -/
theorem C4_witness :
    (UCBManager.mk (1/2) 4 9 [("a", ⟨2, 1.6⟩)]).save.total_runs = 4 * (1/2)
  ∧ ("a", (⟨2 * (1/2), 1.6 * (1/2)⟩ : GroupRecord))
      ∈ (UCBManager.mk (1/2) 4 9 [("a", ⟨2, 1.6⟩)]).save.subnets :=
  ⟨(C4_decay (UCBManager.mk (1/2) 4 9 [("a", ⟨2, 1.6⟩)]) (by norm_num) (by norm_num)).1,
   (C4_decay (UCBManager.mk (1/2) 4 9 [("a", ⟨2, 1.6⟩)]) (by norm_num) (by norm_num)).2.2.1
     "a" ⟨2, 1.6⟩ (by simp) (Or.inl (by norm_num))⟩

theorem get_score_of_lookup (m : UCBManager) (g : String) (r : GroupRecord)
    (hr : lookupKey m.subnets g = some r) (hc : ¬ r.count < 0.1) :
    m.get_score g
      = (r.total_reward : ℝ) / (r.count : ℝ)
        + Real.sqrt (2 * Real.log (max (m.total_runs : ℝ) 1) / (r.count : ℝ)) := by
  unfold UCBManager.get_score
  rw [hr]
  exact if_neg hc

/-- C1 amended: `get_score` returns the 9999 sentinel when the group is
absent or has `count < 0.1`, and otherwise the UCB value
`avgReward + sqrt(2 * ln(max(totalSamples,1)) / count)`; and the sentinel
strictly exceeds every explored group's score provided the explored
group's average reward is at most 1 (the largest achievable per-outcome
reward) and `totalSamples` is at most `e^100` (without those bounds on the
stored state the dominance fails, see the counterexample). -/
theorem C1_score_amended (m : UCBManager) (g : String) :
    (lookupKey m.subnets g = none → m.get_score g = 9999)
  ∧ (∀ r : GroupRecord, lookupKey m.subnets g = some r → r.count < 0.1 →
      m.get_score g = 9999)
  ∧ (∀ r : GroupRecord, lookupKey m.subnets g = some r → ¬ r.count < 0.1 →
      m.get_score g
        = (r.total_reward : ℝ) / (r.count : ℝ)
          + Real.sqrt (2 * Real.log (max (m.total_runs : ℝ) 1) / (r.count : ℝ)))
  ∧ (∀ r : GroupRecord, lookupKey m.subnets g = some r → ¬ r.count < 0.1 →
      (r.total_reward : ℝ) / (r.count : ℝ) ≤ 1 →
      (m.total_runs : ℝ) ≤ Real.exp 100 →
      m.get_score g < 9999) := by
  refine ⟨?_, ?_, ?_, ?_⟩
  · intro hn; unfold UCBManager.get_score; rw [hn]
  · intro r hr hc; unfold UCBManager.get_score; rw [hr]; exact if_pos hc
  · intro r hr hc; exact get_score_of_lookup m g r hr hc
  · intro r hr hc havg hn
    rw [get_score_of_lookup m g r hr hc]
    have hcq : (0.1 : ℚ) ≤ r.count := not_lt.1 hc
    have hc' : (0.1 : ℝ) ≤ (r.count : ℝ) := by
      have := (Rat.cast_le (K := ℝ)).2 hcq
      push_cast at this
      linarith
    have hnjpos : (0 : ℝ) < (r.count : ℝ) := by linarith
    have hmax1 : (1 : ℝ) ≤ max (m.total_runs : ℝ) 1 := le_max_right _ _
    have hmaxpos : (0 : ℝ) < max (m.total_runs : ℝ) 1 := lt_of_lt_of_le one_pos hmax1
    have hmaxle : max (m.total_runs : ℝ) 1 ≤ Real.exp 100 := by
      refine max_le hn ?_
      calc (1 : ℝ) = Real.exp 0 := Real.exp_zero.symm
        _ ≤ Real.exp 100 := Real.exp_le_exp.2 (by norm_num)
    have hlog : Real.log (max (m.total_runs : ℝ) 1) ≤ 100 := by
      rw [Real.log_le_iff_le_exp hmaxpos]
      exact hmaxle
    have hlog0 : 0 ≤ Real.log (max (m.total_runs : ℝ) 1) := Real.log_nonneg hmax1
    have hdiv : 2 * Real.log (max (m.total_runs : ℝ) 1) / (r.count : ℝ) ≤ 2000 := by
      have h200 : 2 * Real.log (max (m.total_runs : ℝ) 1) / (r.count : ℝ) ≤ 200 / 0.1 :=
        div_le_div₀ (by norm_num) (by linarith) (by norm_num) hc'
      linarith [h200, show (200 : ℝ) / 0.1 = 2000 by norm_num]
    have hsqrt : Real.sqrt (2 * Real.log (max (m.total_runs : ℝ) 1) / (r.count : ℝ)) ≤ 45 := by
      have h1 : Real.sqrt (2 * Real.log (max (m.total_runs : ℝ) 1) / (r.count : ℝ))
          ≤ Real.sqrt (45 ^ 2) := Real.sqrt_le_sqrt (by nlinarith)
      rwa [Real.sqrt_sq (by norm_num : (0 : ℝ) ≤ 45)] at h1
    linarith

/-- C1 counterexample: with a stored record of one sample and total reward
20000 (a state the claim does not exclude: it asserts dominance regardless
of the explored group's reward values), the explored group's score is
20000 and the 9999 sentinel returned for an absent group does not exceed
it. -/
theorem C1_counterexample :
    (UCBManager.mk 0.85 1 5 [("1.2.3.0", ⟨1, 20000⟩)]).get_score "9.9.9.0" = 9999
  ∧ (UCBManager.mk 0.85 1 5 [("1.2.3.0", ⟨1, 20000⟩)]).get_score "1.2.3.0" = 20000
  ∧ ¬ ((9999 : ℝ) > 20000) := by
  refine ⟨?_, ?_, by norm_num⟩
  · unfold UCBManager.get_score
    rw [show lookupKey (UCBManager.mk 0.85 1 5 [("1.2.3.0", ⟨1, 20000⟩)]).subnets "9.9.9.0"
        = none from rfl]
  · rw [get_score_of_lookup (UCBManager.mk 0.85 1 5 [("1.2.3.0", ⟨1, 20000⟩)]) "1.2.3.0"
        ⟨1, 20000⟩ rfl (by norm_num)]
    have h1 : ((UCBManager.mk 0.85 1 5 [("1.2.3.0", ⟨1, 20000⟩)]).total_runs : ℝ) = 1 := by
      norm_num
    rw [h1]
    norm_num [Real.log_one, Real.sqrt_zero]

/-- Witness for C1 (amended): a well-formed explored group (count 1,
average reward 1, one total sample) scores strictly below the sentinel. -/
theorem C1_witness :
    (UCBManager.mk 0.85 1 5 [("1.2.3.0", ⟨1, 1⟩)]).get_score "1.2.3.0" < 9999 :=
  (C1_score_amended (UCBManager.mk 0.85 1 5 [("1.2.3.0", ⟨1, 1⟩)]) "1.2.3.0").2.2.2
    ⟨1, 1⟩ rfl (by norm_num)
    (by norm_num)
    (by
      have h1 : ((UCBManager.mk 0.85 1 5 [("1.2.3.0", ⟨1, 1⟩)]).total_runs : ℝ) = 1 := by
        norm_num
      rw [h1]
      calc (1 : ℝ) = Real.exp 0 := Real.exp_zero.symm
        _ ≤ Real.exp 100 := Real.exp_le_exp.2 (by norm_num))

/-- A concrete random oracle: raw integer entropy is the call index, float
draws are 0, shuffles and the score sort leave lists in place (one possible
behaviour of the random source). -/
def natOracle : RandOracle := ⟨fun n => n, fun _ => 0, id, id, id⟩

/-- A concrete random oracle whose raw integer entropy is always 0. -/
def zeroOracle : RandOracle := ⟨fun _ => 0, fun _ => 0, id, id, id⟩

theorem coldLoop_single32_none (ints : ℕ → ℕ) (b : ℕ) :
    ∀ fuel ctr, coldLoop ints [⟨b, 32⟩] 1 fuel ctr [] = none := by
  intro fuel
  induction fuel with
  | zero => intro ctr; rfl
  | succ n ih =>
    intro ctr
    have hsweep : sweepOnce ints 1 [⟨b, 32⟩] ctr [] = ([], ctr) := by
      norm_num [sweepOnce, Net.num_addresses]
    unfold coldLoop
    rw [if_neg (by norm_num)]
    simp only [hsweep]
    rw [if_neg (by norm_num), if_neg (by norm_num)]
    exact ih ctr

/-- C8: the candidate generator does NOT terminate on every input: with a
single /32 range (1 address, so no subnet can ever contribute a pick) and
target count 1, each sweep of the cold-start loop adds nothing and the
safety guard `len(all_subnets) * 254 < max_total_count` is false
(254 < 1), so the `while` loop never exits: for every fuel bound the
embedded loop is still running (`none`), both at the loop itself and
through `SmartGenerator.generate` on a fresh cold-start model. -/
theorem C8_generator_divergence :
    (∀ (ints : ℕ → ℕ) (b fuel ctr : ℕ), coldLoop ints [⟨b, 32⟩] 1 fuel ctr [] = none)
  ∧ ∀ (b fuel : ℕ),
      SmartGenerator.generate [⟨b, 32⟩] [] 1 (UCBManager.mk 0.85 0 1 []) natOracle fuel
        = none := by
  refine ⟨fun ints b fuel ctr => coldLoop_single32_none ints b fuel ctr, ?_⟩
  intro b fuel
  have hsub : allSubnets [⟨b, 32⟩] = [⟨b, 32⟩] := by
    norm_num [allSubnets, expand24]
  unfold SmartGenerator.generate
  rw [show (UCBManager.mk 0.85 0 1 []).is_cold_start = true from rfl]
  simp only [if_true, hsub, natOracle, id]
  rw [coldLoop_single32_none (fun n => n) b fuel 0]

theorem tierQuota_le_five (rank total : ℕ) (draw : ℚ) :
    tierQuota rank total draw ≤ 5 := by
  unfold tierQuota
  repeat' split
  all_goals norm_num

theorem pickGroup_length_le (ints : ℕ → ℕ) (sn : Net) :
    ∀ (slots ctr : ℕ) (picked : List ℕ),
      (pickGroup ints sn slots ctr picked).1.length ≤ slots := by
  intro slots
  induction slots with
  | zero => intro ctr picked; simp [pickGroup]
  | succ k ih =>
    intro ctr picked
    unfold pickGroup
    cases h : attemptPick ints sn 5 ctr picked with
    | mk fst snd =>
      cases fst with
      | some rip =>
        simpa using Nat.succ_le_succ (ih snd (rip :: picked))
      | none => exact le_trans (ih snd picked) (Nat.le_succ k)

theorem warmLoop_length_le (ints : ℕ → ℕ) (floats : ℕ → ℚ) (total max : ℕ) :
    ∀ (l : List Net) (rank ictr fctr gen : ℕ) (targets : List ℕ),
      gen = targets.length → targets.length ≤ max + 4 →
      (warmLoop ints floats total max l rank ictr fctr gen targets).length ≤ max + 4 := by
  intro l
  induction l with
  | nil =>
    intro rank ictr fctr gen targets hgen hb
    simpa [warmLoop] using hb
  | cons sn rest ih =>
    intro rank ictr fctr gen targets hgen hb
    unfold warmLoop
    split
    · exact hb
    · rename_i hlt
      dsimp only
      split
      · apply ih
        · simp [hgen]
        · have hq : tierQuota rank total (floats fctr) ≤ 5 :=
            tierQuota_le_five rank total (floats fctr)
          have hrc : (if 2 < sn.num_addresses
              then min (tierQuota rank total (floats fctr)) (sn.num_addresses - 2)
              else 1) ≤ 5 := by
            split
            · exact le_trans (min_le_left _ _) hq
            · norm_num
          have hnews :
              (pickGroup ints sn
                (if 2 < sn.num_addresses
                  then min (tierQuota rank total (floats fctr)) (sn.num_addresses - 2)
                  else 1) ictr []).1.length ≤ 5 :=
            le_trans (pickGroup_length_le ints sn _ ictr []) hrc
          simp only [List.length_append]
          omega
      · exact ih (rank + 1) ictr _ gen targets hgen hb

/-- A model state outside the cold-start regime: 100 known groups and a
launch count past the first three runs. -/
def warmModel : UCBManager :=
  UCBManager.mk 0.85 0 4 ((List.range 100).map fun i => (toString i, ⟨1, 1⟩))

/-- C5 (amended): (i) the warm-path quota of the group at a given rank
among `total` groups in descending score order is 5 for the top 5% of
ranks, 3 for the next 15%, 1 for the next 30%, and in the bottom half 1
exactly when the 1%-probability revival draw fires and 0 otherwise;
(ii) the cap is only checked before each group and a group emits up to 5
addresses, so the total emitted by the warm path is bounded by
`targetCount + 4` — but not by `targetCount` itself (the claim's bound
fails, see the counterexample). -/
theorem C5_warm_tiers_and_cap :
    (∀ (rank total : ℕ) (draw : ℚ),
      tierQuota rank total draw
        = if (rank : ℚ) < (total : ℚ) * (5 / 100) then 5
          else if (rank : ℚ) < (total : ℚ) * (20 / 100) then 3
          else if (rank : ℚ) < (total : ℚ) * (50 / 100) then 1
          else if draw < 1 / 100 then 1 else 0)
  ∧ (∀ (ints : ℕ → ℕ) (floats : ℕ → ℚ) (total max : ℕ) (l : List Net)
      (rank ictr fctr : ℕ),
      (warmLoop ints floats total max l rank ictr fctr 0 []).length ≤ max + 4)
  ∧ (∀ (cidrs_v4 : List Net) (max : ℕ) (ucb : UCBManager) (o : RandOracle)
      (fuel : ℕ) (ts : List Addr),
      ucb.is_cold_start = false →
      (∀ l : List Addr, (o.shuffleAddrs l).Perm l) →
      SmartGenerator.generate cidrs_v4 [] max ucb o fuel = some ts →
      ts.length ≤ max + 4) := by
  refine ⟨?_, ?_, ?_⟩
  · intro rank total draw
    have h1 : (total : ℚ) * 0.05 = (total : ℚ) * (5 / 100) := by norm_num
    have h2 : (total : ℚ) * 0.20 = (total : ℚ) * (20 / 100) := by norm_num
    have h3 : (total : ℚ) * 0.50 = (total : ℚ) * (50 / 100) := by norm_num
    have h4 : (0.01 : ℚ) = 1 / 100 := by norm_num
    unfold tierQuota
    rw [h1, h2, h3, h4]
  · intro ints floats total max l rank ictr fctr
    exact warmLoop_length_le ints floats total max l rank ictr fctr 0 [] rfl (by norm_num)
  · intro cidrs_v4 max ucb o fuel ts hcold hperm hgen
    unfold SmartGenerator.generate at hgen
    rw [hcold] at hgen
    simp only [Bool.false_eq_true, if_false, eq_self_iff_true, if_true,
      Option.some.injEq] at hgen
    subst hgen
    have hlen := (hperm ((warmLoop o.ints o.floats (o.sortScored (allSubnets cidrs_v4)).length
      max (o.sortScored (allSubnets cidrs_v4)) 0 0 0 0 []).map Addr.v4)).length_eq
    rw [hlen, List.length_map]
    exact warmLoop_length_le o.ints o.floats _ max _ 0 0 0 0 [] rfl (by norm_num)

/-- C5 counterexample: in warm mode with a single /24 group and
`targetCount = 1`, the single group ranks in the top 5% (quota 5) and the
per-group pick loop never re-checks the cap, so 5 addresses are emitted —
the total emitted exceeds `targetCount`. -/
theorem C5_counterexample :
    (warmLoop (fun n => n) (fun _ => 0) 1 1 [⟨0, 24⟩] 0 0 0 0 []).length = 5
  ∧ SmartGenerator.generate [⟨0, 24⟩] [] 1 warmModel natOracle 9
      = some [Addr.v4 1, Addr.v4 2, Addr.v4 3, Addr.v4 4, Addr.v4 5]
  ∧ ¬ ((5 : ℕ) ≤ 1) := by
  have hpick : pickGroup (fun n => n) ⟨0, 24⟩ 5 0 [] = ([1, 2, 3, 4, 5], 5) := by
    norm_num [pickGroup, attemptPick, randint, Net.num_addresses]
  have hq : tierQuota 0 1 0 = 5 := by
    norm_num [tierQuota]
  have hwarm : warmLoop (fun n => n) (fun _ => 0) 1 1 [⟨0, 24⟩] 0 0 0 0 []
      = [1, 2, 3, 4, 5] := by
    norm_num [warmLoop, hq, hpick, usesDraw, Net.num_addresses]
  refine ⟨by rw [hwarm]; rfl, ?_, by norm_num⟩
  have hcold : warmModel.is_cold_start = false := rfl
  unfold SmartGenerator.generate
  rw [hcold]
  simp only [Bool.false_eq_true, if_false, eq_self_iff_true, if_true, Option.some.injEq]
  have hsub : allSubnets [⟨0, 24⟩] = [⟨0, 24⟩] := by
    norm_num [allSubnets, expand24]
  simp only [natOracle, id, hsub]
  rw [show ([(⟨0, 24⟩ : Net)].length) = 1 from rfl]
  rw [hwarm]
  rfl

/-- Witness for C5 (amended): the warm model is out of cold start, and the
warm path on an empty range list emits 0 ≤ targetCount + 4 addresses. -/
theorem C5_witness :
    warmModel.is_cold_start = false ∧ ([] : List Addr).length ≤ 7 + 4 :=
  ⟨rfl, C5_warm_tiers_and_cap.2.2 [] 7 warmModel natOracle 3 [] rfl
      (fun l => List.Perm.refl l) rfl⟩

/-- The number of distinct host addresses the cold-start path can pick
from a subnet (`random.randint(1, num_addresses - 2)` behind the
`num_addresses > 2` guard): formalizes the spec's "distinct host
addresses supplied" by a range list. -/
def pickable (sn : Net) : ℕ := if 2 < sn.num_addresses then sn.num_addresses - 2 else 0

/-- Total distinct host addresses supplied by a subnet list. -/
def hostsAvail (l : List Net) : ℕ := (l.map pickable).sum

theorem mem_allSubnets (cidrs : List Net) (sn : Net) :
    sn ∈ allSubnets cidrs ↔ ∃ c ∈ cidrs, sn ∈ expand24 c := by
  simp [allSubnets, List.mem_flatten, List.mem_map]

theorem expand24_span (c sn : Net) (h : sn ∈ expand24 c) :
    c.base ≤ sn.base ∧ sn.base + sn.num_addresses ≤ c.base + c.num_addresses
      ∧ sn.num_addresses ≤ 256 := by
  unfold expand24 at h
  split at h
  · rename_i hp
    simp only [List.mem_map, List.mem_range] at h
    obtain ⟨i, hi, rfl⟩ := h
    refine ⟨Nat.le_add_right _ _, ?_, ?_⟩
    · show c.base + i * 256 + 2 ^ (32 - 24) ≤ c.base + 2 ^ (32 - c.prefixlen)
      have h1 : i + 1 ≤ 2 ^ (24 - c.prefixlen) := hi
      have h2 : 2 ^ (24 - c.prefixlen) * 256 = 2 ^ (32 - c.prefixlen) := by
        rw [show (256 : ℕ) = 2 ^ 8 from rfl, ← pow_add]
        congr 1
        omega
      have h3 : (i + 1) * 256 ≤ 2 ^ (24 - c.prefixlen) * 256 :=
        Nat.mul_le_mul_right _ h1
      have h4 : 2 ^ (32 - 24) = 256 := rfl
      omega
    · show 2 ^ (32 - 24) ≤ 256
      norm_num
  · rename_i hp
    simp only [List.mem_singleton] at h
    subst h
    refine ⟨le_refl _, le_refl _, ?_⟩
    unfold Net.num_addresses
    calc 2 ^ (32 - sn.prefixlen) ≤ 2 ^ 8 := Nat.pow_le_pow_right (by norm_num) (by omega)
      _ = 256 := rfl

theorem pickable_le_254 (cidrs : List Net) (sn : Net) (h : sn ∈ allSubnets cidrs) :
    pickable sn ≤ 254 := by
  obtain ⟨c, -, hsn⟩ := (mem_allSubnets cidrs sn).1 h
  have hspan := (expand24_span c sn hsn).2.2
  unfold pickable
  split
  · omega
  · omega

theorem hostsAvail_le_mul (l : List Net) (h : ∀ sn ∈ l, pickable sn ≤ 254) :
    hostsAvail l ≤ l.length * 254 := by
  induction l with
  | nil => simp [hostsAvail]
  | cons sn rest ih =>
    have h1 : pickable sn ≤ 254 := h sn (List.mem_cons_self sn rest)
    have h2 : hostsAvail rest ≤ rest.length * 254 :=
      ih fun x hx => h x (List.mem_cons_of_mem sn hx)
    simp only [hostsAvail, List.map_cons, List.sum_cons, List.length_cons] at *
    omega

theorem exists_good_of_hostsAvail_pos (l : List Net) (h : 0 < hostsAvail l) :
    ∃ sn ∈ l, 2 < sn.num_addresses := by
  induction l with
  | nil => simp [hostsAvail] at h
  | cons sn rest ih =>
    by_cases hsn : 2 < sn.num_addresses
    · exact ⟨sn, List.mem_cons_self sn rest, hsn⟩
    · have hz : pickable sn = 0 := by unfold pickable; rw [if_neg hsn]
      have hrest : 0 < hostsAvail rest := by
        simp only [hostsAvail, List.map_cons, List.sum_cons, hz, Nat.zero_add] at h ⊢
        exact h
      obtain ⟨x, hx, hgood⟩ := ih hrest
      exact ⟨x, List.mem_cons_of_mem sn hx, hgood⟩

theorem sweepOnce_length_mono (ints : ℕ → ℕ) (max : ℕ) :
    ∀ (l : List Net) (ctr : ℕ) (targets : List ℕ),
      targets.length ≤ (sweepOnce ints max l ctr targets).1.length := by
  intro l
  induction l with
  | nil => intro ctr targets; simp [sweepOnce]
  | cons sn rest ih =>
    intro ctr targets
    unfold sweepOnce
    split
    · exact le_refl _
    · split
      · calc targets.length ≤ (targets ++ [sn.base + randint (ints ctr) 1
              (sn.num_addresses - 2)]).length := by simp
          _ ≤ _ := ih (ctr + 1) _
      · exact ih ctr targets

theorem sweepOnce_length_le (ints : ℕ → ℕ) (max : ℕ) :
    ∀ (l : List Net) (ctr : ℕ) (targets : List ℕ),
      targets.length ≤ max → (sweepOnce ints max l ctr targets).1.length ≤ max := by
  intro l
  induction l with
  | nil => intro ctr targets h; simpa [sweepOnce] using h
  | cons sn rest ih =>
    intro ctr targets h
    unfold sweepOnce
    split
    · exact h
    · rename_i hlt
      split
      · refine ih (ctr + 1) _ ?_
        simp only [List.length_append, List.length_singleton]
        omega
      · exact ih ctr targets h

theorem sweepOnce_progress (ints : ℕ → ℕ) (max : ℕ) :
    ∀ (l : List Net) (ctr : ℕ) (targets : List ℕ),
      targets.length < max → (∃ sn ∈ l, 2 < sn.num_addresses) →
      targets.length < (sweepOnce ints max l ctr targets).1.length := by
  intro l
  induction l with
  | nil =>
    intro ctr targets hlt hgood
    obtain ⟨sn, hsn, -⟩ := hgood
    exact absurd hsn (List.not_mem_nil sn)
  | cons sn rest ih =>
    intro ctr targets hlt hgood
    unfold sweepOnce
    rw [if_neg (by omega)]
    split
    · calc targets.length < (targets ++ [sn.base + randint (ints ctr) 1
          (sn.num_addresses - 2)]).length := by simp
        _ ≤ _ := sweepOnce_length_mono ints max rest (ctr + 1) _
    · rename_i hbad
      obtain ⟨x, hx, hxg⟩ := hgood
      rcases List.mem_cons.1 hx with rfl | hx'
      · exact absurd hxg hbad
      · exact ih ctr targets hlt ⟨x, hx', hxg⟩

theorem sweepOnce_forall {P : ℕ → Prop} (ints : ℕ → ℕ) (max : ℕ) :
    ∀ (l : List Net) (ctr : ℕ) (targets : List ℕ),
      (∀ a ∈ targets, P a) →
      (∀ sn ∈ l, 2 < sn.num_addresses →
        ∀ k, P (sn.base + randint (ints k) 1 (sn.num_addresses - 2))) →
      ∀ a ∈ (sweepOnce ints max l ctr targets).1, P a := by
  intro l
  induction l with
  | nil => intro ctr targets hPt hPl; simpa [sweepOnce] using hPt
  | cons sn rest ih =>
    intro ctr targets hPt hPl
    unfold sweepOnce
    split
    · exact hPt
    · split
      · rename_i hgood
        refine ih (ctr + 1) _ ?_ ?_
        · intro a ha
          rcases List.mem_append.1 ha with h | h
          · exact hPt a h
          · rcases List.mem_singleton.1 h with rfl
            exact hPl sn (List.mem_cons_self sn rest) hgood ctr
        · intro x hx hxg k
          exact hPl x (List.mem_cons_of_mem sn hx) hxg k
      · refine ih ctr targets hPt ?_
        intro x hx hxg k
        exact hPl x (List.mem_cons_of_mem sn hx) hxg k

theorem coldLoop_succ (ints : ℕ → ℕ) (l : List Net) (max n ctr : ℕ) (targets : List ℕ) :
    coldLoop ints l max (n + 1) ctr targets
      = if max ≤ targets.length then some (targets, ctr)
        else if max ≤ (sweepOnce ints max l ctr targets).1.length then
          some (sweepOnce ints max l ctr targets)
        else if l.length * 254 < max
            ∧ l.length * 250 ≤ (sweepOnce ints max l ctr targets).1.length then
          some (sweepOnce ints max l ctr targets)
        else coldLoop ints l max n (sweepOnce ints max l ctr targets).2
          (sweepOnce ints max l ctr targets).1 := rfl

theorem coldLoop_main {P : ℕ → Prop} (ints : ℕ → ℕ) (l : List Net) (max : ℕ)
    (hguard : max ≤ l.length * 254)
    (hgood : ∃ sn ∈ l, 2 < sn.num_addresses)
    (hP : ∀ sn ∈ l, 2 < sn.num_addresses →
      ∀ k, P (sn.base + randint (ints k) 1 (sn.num_addresses - 2))) :
    ∀ (fuel ctr : ℕ) (targets : List ℕ),
      0 < fuel → targets.length ≤ max → max - targets.length ≤ fuel →
      (∀ a ∈ targets, P a) →
      ∃ r : List ℕ × ℕ, coldLoop ints l max fuel ctr targets = some r
        ∧ r.1.length = max ∧ ∀ a ∈ r.1, P a := by
  intro fuel
  induction fuel with
  | zero => intro ctr targets hpos; omega
  | succ n ih =>
    intro ctr targets hpos hle hfuel hPt
    rw [coldLoop_succ]
    by_cases hmax : max ≤ targets.length
    · rw [if_pos hmax]
      exact ⟨(targets, ctr), rfl, le_antisymm hle hmax, hPt⟩
    · rw [if_neg hmax]
      push_neg at hmax
      have hsmono : targets.length < (sweepOnce ints max l ctr targets).1.length :=
        sweepOnce_progress ints max l ctr targets hmax hgood
      have hscap : (sweepOnce ints max l ctr targets).1.length ≤ max :=
        sweepOnce_length_le ints max l ctr targets hle
      have hsP : ∀ a ∈ (sweepOnce ints max l ctr targets).1, P a :=
        sweepOnce_forall ints max l ctr targets hPt hP
      by_cases h2 : max ≤ (sweepOnce ints max l ctr targets).1.length
      · rw [if_pos h2]
        exact ⟨sweepOnce ints max l ctr targets, rfl, le_antisymm hscap h2, hsP⟩
      · rw [if_neg h2]
        have hng : ¬ (l.length * 254 < max
            ∧ l.length * 250 ≤ (sweepOnce ints max l ctr targets).1.length) := by
          rintro ⟨hg1, -⟩
          omega
        rw [if_neg hng]
        exact ih (sweepOnce ints max l ctr targets).2
          (sweepOnce ints max l ctr targets).1 (by omega) hscap (by omega) hsP

/-- C6 (amended): for every random seed, cold-start generation with
`targetCount = 1000` over IPv4 ranges supplying at least 1000 distinct
host addresses returns (the embedded loop finishing within 1000 sweeps)
exactly 1000 addresses, each lying within one of the supplied ranges —
but they are NOT necessarily pairwise distinct: the cold path never
deduplicates its picks (see the counterexample). -/
theorem C6_cold_start_amended (cidrs : List Net) (o : RandOracle) (ucb : UCBManager)
    (hcold : ucb.is_cold_start = true)
    (hperm1 : ∀ l : List Net, (o.shuffleNets l).Perm l)
    (hperm2 : ∀ l : List Addr, (o.shuffleAddrs l).Perm l)
    (hsup : 1000 ≤ hostsAvail (allSubnets cidrs)) :
    ∃ ts : List Addr, SmartGenerator.generate cidrs [] 1000 ucb o 1000 = some ts
      ∧ ts.length = 1000
      ∧ ∀ a ∈ ts, ∃ c ∈ cidrs, ∃ x : ℕ, a = Addr.v4 x
          ∧ c.base ≤ x ∧ x < c.base + c.num_addresses := by
  have hL : (o.shuffleNets (allSubnets cidrs)).Perm (allSubnets cidrs) := hperm1 _
  have hmemL : ∀ sn ∈ o.shuffleNets (allSubnets cidrs), sn ∈ allSubnets cidrs :=
    fun sn hsn => hL.mem_iff.1 hsn
  have hAvail : hostsAvail (o.shuffleNets (allSubnets cidrs))
      = hostsAvail (allSubnets cidrs) := (hL.map pickable).sum_eq
  have hguard : 1000 ≤ (o.shuffleNets (allSubnets cidrs)).length * 254 := by
    have h1 : hostsAvail (o.shuffleNets (allSubnets cidrs))
        ≤ (o.shuffleNets (allSubnets cidrs)).length * 254 :=
      hostsAvail_le_mul _ fun sn hsn => pickable_le_254 cidrs sn (hmemL sn hsn)
    omega
  have hgood : ∃ sn ∈ o.shuffleNets (allSubnets cidrs), 2 < sn.num_addresses :=
    exists_good_of_hostsAvail_pos _ (by omega)
  have hP : ∀ sn ∈ o.shuffleNets (allSubnets cidrs), 2 < sn.num_addresses →
      ∀ k, ∃ c ∈ cidrs, c.base ≤ sn.base + randint (o.ints k) 1 (sn.num_addresses - 2)
        ∧ sn.base + randint (o.ints k) 1 (sn.num_addresses - 2) < c.base + c.num_addresses := by
    intro sn hsn hg k
    obtain ⟨c, hc, hexp⟩ := (mem_allSubnets cidrs sn).1 (hmemL sn hsn)
    obtain ⟨hlo, hhi, -⟩ := expand24_span c sn hexp
    have hmod : o.ints k % (sn.num_addresses - 2) < sn.num_addresses - 2 :=
      Nat.mod_lt (o.ints k) (by omega)
    have hidx : randint (o.ints k) 1 (sn.num_addresses - 2) < sn.num_addresses := by
      unfold randint
      rw [show sn.num_addresses - 2 + 1 - 1 = sn.num_addresses - 2 from by omega]
      omega
    exact ⟨c, hc, by omega, by omega⟩
  obtain ⟨⟨ts', ctr'⟩, hr, hlen, hPr⟩ :=
    coldLoop_main (P := fun x => ∃ c ∈ cidrs, c.base ≤ x ∧ x < c.base + c.num_addresses)
      o.ints (o.shuffleNets (allSubnets cidrs)) 1000 hguard hgood hP
      1000 0 [] (by norm_num) (by norm_num) (by norm_num) (by intro a ha; cases ha)
  refine ⟨o.shuffleAddrs (ts'.map Addr.v4), ?_, ?_, ?_⟩
  · unfold SmartGenerator.generate
    rw [hcold]
    simp only [eq_self_iff_true, if_true]
    rw [hr]
  · rw [(hperm2 (ts'.map Addr.v4)).length_eq, List.length_map]
    exact hlen
  · intro a ha
    have ha' : a ∈ ts'.map Addr.v4 := (hperm2 (ts'.map Addr.v4)).mem_iff.1 ha
    obtain ⟨x, hx, rfl⟩ := List.mem_map.1 ha'
    obtain ⟨c, hc, h1, h2⟩ := hPr x hx
    exact ⟨c, hc, x, rfl, h1, h2⟩

theorem generate_cold_eq (cidrs_v4 : List Net) (max_total_count fuel : ℕ)
    (ucb : UCBManager) (o : RandOracle) (ts : List ℕ) (c : ℕ)
    (hcold : ucb.is_cold_start = true)
    (hr : coldLoop o.ints (o.shuffleNets (allSubnets cidrs_v4)) max_total_count fuel 0 []
      = some (ts, c)) :
    SmartGenerator.generate cidrs_v4 [] max_total_count ucb o fuel
      = some (o.shuffleAddrs (ts.map Addr.v4)) := by
  unfold SmartGenerator.generate
  rw [hcold]
  simp only [eq_self_iff_true, if_true]
  rw [hr]

/-- C6 counterexample: under the all-zeros draw sequence (one possible
random seed), every sweep of the cold path picks the same host (offset 1)
of each of the 4 /24 groups of a /22 range (1016 available hosts), and the
cold path never deduplicates, so the 1000 returned addresses take only 4
distinct values — the claimed pairwise distinctness fails. -/
theorem C6_counterexample :
    (SmartGenerator.generate [⟨0, 22⟩] [] 1000 (UCBManager.mk 0.85 0 1 [])
        zeroOracle 1000).isSome = true
  ∧ ((SmartGenerator.generate [⟨0, 22⟩] [] 1000 (UCBManager.mk 0.85 0 1 [])
        zeroOracle 1000).getD []).length = 1000
  ∧ ¬ ((SmartGenerator.generate [⟨0, 22⟩] [] 1000 (UCBManager.mk 0.85 0 1 [])
        zeroOracle 1000).getD []).Nodup := by
  have hsubs : zeroOracle.shuffleNets (allSubnets [⟨0, 22⟩])
      = [⟨0, 24⟩, ⟨256, 24⟩, ⟨512, 24⟩, ⟨768, 24⟩] := by decide
  obtain ⟨⟨ts', ctr'⟩, hr, hlen, hPr⟩ :=
    coldLoop_main (P := fun x => x ∈ ([1, 257, 513, 769] : List ℕ))
      zeroOracle.ints (zeroOracle.shuffleNets (allSubnets [⟨0, 22⟩])) 1000
      (by rw [hsubs]; norm_num)
      (by
        rw [hsubs]
        exact ⟨⟨0, 24⟩, List.mem_cons_self _ _, by norm_num [Net.num_addresses]⟩)
      (by
        intro sn hsn hg k
        rw [hsubs] at hsn
        rw [show zeroOracle.ints k = 0 from rfl]
        fin_cases hsn <;> simp [randint, Net.num_addresses])
      1000 0 [] (by norm_num) (by norm_num) (by norm_num) (fun a ha => absurd ha (List.not_mem_nil a))
  have hgen : SmartGenerator.generate [⟨0, 22⟩] [] 1000 (UCBManager.mk 0.85 0 1 [])
      zeroOracle 1000 = some (ts'.map Addr.v4) :=
    generate_cold_eq [⟨0, 22⟩] 1000 1000 (UCBManager.mk 0.85 0 1 []) zeroOracle ts' ctr'
      rfl hr
  rw [hgen]
  refine ⟨rfl, by simp [hlen], ?_⟩
  intro hnd
  have h1 : ts'.Nodup := List.Nodup.of_map Addr.v4 (by simpa using hnd)
  have h2 : ts' ⊆ [1, 257, 513, 769] := fun x hx => hPr x hx
  have h3 := (List.subperm_of_subset h1 h2).length_le
  rw [hlen] at h3
  norm_num at h3

/-- Witness for C6 (amended) at a concrete input: a /22 range supplies
1016 ≥ 1000 hosts, the fresh model (launch count 1, no groups) is in cold
start, and the identity shuffles are permutations. -/
theorem C6_witness :
    ∃ ts : List Addr,
      SmartGenerator.generate [⟨0, 22⟩] [] 1000 (UCBManager.mk 0.85 0 1 []) natOracle 1000
        = some ts
      ∧ ts.length = 1000
      ∧ ∀ a ∈ ts, ∃ c ∈ [(⟨0, 22⟩ : Net)], ∃ x : ℕ, a = Addr.v4 x
          ∧ c.base ≤ x ∧ x < c.base + c.num_addresses :=
  C6_cold_start_amended [⟨0, 22⟩] natOracle (UCBManager.mk 0.85 0 1 []) rfl
    (fun l => List.Perm.refl l) (fun l => List.Perm.refl l) (by decide)

theorem insertSpeedDesc_perm (x : IpResult) (l : List IpResult) :
    (insertSpeedDesc x l).Perm (x :: l) := by
  induction l with
  | nil => exact List.Perm.refl _
  | cons y ys ih =>
    unfold insertSpeedDesc
    split
    · exact List.Perm.refl _
    · exact (ih.cons y).trans (List.Perm.swap x y ys)

theorem sortSpeedDesc_perm (l : List IpResult) : (sortSpeedDesc l).Perm l := by
  induction l with
  | nil => exact List.Perm.refl _
  | cons x xs ih =>
    exact (insertSpeedDesc_perm x (sortSpeedDesc xs)).trans (ih.cons x)

theorem insertSpeedDesc_sorted (x : IpResult) (l : List IpResult)
    (h : List.Pairwise (fun a b => b.speed ≤ a.speed) l) :
    List.Pairwise (fun a b => b.speed ≤ a.speed) (insertSpeedDesc x l) := by
  induction l with
  | nil => simp [insertSpeedDesc]
  | cons y ys ih =>
    rcases List.pairwise_cons.1 h with ⟨hy, hys⟩
    unfold insertSpeedDesc
    split
    · rename_i hle
      refine List.pairwise_cons.2 ⟨?_, h⟩
      intro z hz
      rcases List.mem_cons.1 hz with rfl | hz'
      · exact hle
      · exact le_trans (hy z hz') hle
    · rename_i hgt
      refine List.pairwise_cons.2 ⟨?_, ih hys⟩
      intro z hz
      have hz2 := (insertSpeedDesc_perm x ys).mem_iff.1 hz
      rcases List.mem_cons.1 hz2 with rfl | hz'
      · exact le_of_not_le hgt
      · exact hy z hz'

theorem sortSpeedDesc_sorted (l : List IpResult) :
    List.Pairwise (fun a b => b.speed ≤ a.speed) (sortSpeedDesc l) := by
  induction l with
  | nil => simp [sortSpeedDesc]
  | cons x xs ih => exact insertSpeedDesc_sorted x _ ih

theorem selectFinal_subset (measured : List IpResult) (t : ℚ) :
    ∀ r ∈ Scanner.selectFinal measured t, r ∈ measured ∧ 0.1 < r.speed := by
  intro r hr
  have hfin : ∀ x ∈ sortSpeedDesc (measured.filter fun s => decide (0.1 < s.speed)),
      x ∈ measured ∧ 0.1 < x.speed := by
    intro x hx
    have hx' := (sortSpeedDesc_perm _).mem_iff.1 hx
    rcases List.mem_filter.1 hx' with ⟨hm, hs⟩
    exact ⟨hm, of_decide_eq_true hs⟩
  simp only [Scanner.selectFinal] at hr
  split at hr
  · rcases List.mem_append.1 hr with h | h
    · exact hfin r (List.mem_filter.1 h).1
    · exact hfin r (List.mem_filter.1 (List.mem_of_mem_take h)).1
  · exact hfin r (List.mem_filter.1 hr).1

/-- C7 (amended): after Stage 2, writing `F` for the probed candidates
with measured throughput strictly above 0.1 MB/s: every probed candidate
in `F` meeting `min_speed_target` is selected; every selected result is a
probed candidate in `F`; when at least 5 candidates of `F` qualify the
selection is exactly the qualifiers (as a multiset); when fewer than 5
qualify the selection is the qualifiers followed by the remaining members
of `F` in descending order of throughput, cut off at 5 results; and the
sorted pool is genuinely descending by throughput.  Probed candidates with
throughput at most 0.1 MB/s are excluded even from the backfill (the
claim's unrestricted backfill fails, see the counterexample). -/
theorem C7_selection_amended (measured : List IpResult) (target : ℚ) :
    (∀ r ∈ measured, 0.1 < r.speed → target ≤ r.speed →
        r ∈ Scanner.selectFinal measured target)
  ∧ (∀ r ∈ Scanner.selectFinal measured target, r ∈ measured ∧ 0.1 < r.speed)
  ∧ (5 ≤ ((measured.filter fun r => decide (0.1 < r.speed)).filter
        fun r => decide (target ≤ r.speed)).length →
      (Scanner.selectFinal measured target).Perm
        ((measured.filter fun r => decide (0.1 < r.speed)).filter
          fun r => decide (target ≤ r.speed)))
  ∧ (((measured.filter fun r => decide (0.1 < r.speed)).filter
        fun r => decide (target ≤ r.speed)).length < 5 →
      Scanner.selectFinal measured target
        = ((sortSpeedDesc (measured.filter fun r => decide (0.1 < r.speed))).filter
            fun r => decide (target ≤ r.speed))
          ++ ((sortSpeedDesc (measured.filter fun r => decide (0.1 < r.speed))).filter
              fun r => decide (r.speed < target)).take
            (5 - ((measured.filter fun r => decide (0.1 < r.speed)).filter
              fun r => decide (target ≤ r.speed)).length))
  ∧ List.Pairwise (fun a b => b.speed ≤ a.speed)
      (sortSpeedDesc (measured.filter fun r => decide (0.1 < r.speed))) := by
  have hqlen : ((sortSpeedDesc (measured.filter fun r => decide (0.1 < r.speed))).filter
        fun r => decide (target ≤ r.speed)).length
      = ((measured.filter fun r => decide (0.1 < r.speed)).filter
        fun r => decide (target ≤ r.speed)).length :=
    ((sortSpeedDesc_perm _).filter _).length_eq
  have hnotmem : (sortSpeedDesc (measured.filter fun r => decide (0.1 < r.speed))).filter
        (fun r => decide (r ∉ (sortSpeedDesc (measured.filter
          fun s => decide (0.1 < s.speed))).filter fun s => decide (target ≤ s.speed)))
      = (sortSpeedDesc (measured.filter fun r => decide (0.1 < r.speed))).filter
        fun r => decide (r.speed < target) := by
    apply List.filter_congr
    intro x hx
    apply decide_eq_decide.2
    constructor
    · intro hnm
      by_contra hlt
      exact hnm (List.mem_filter.2 ⟨hx, by
        simp only [decide_eq_true_eq]
        exact le_of_not_lt hlt⟩)
    · intro hlt hm
      have := (List.mem_filter.1 hm).2
      simp only [decide_eq_true_eq] at this
      exact absurd hlt (not_lt.2 this)
  refine ⟨?_, fun r hr => selectFinal_subset measured target r hr, ?_, ?_, ?_⟩
  · intro r hm hs ht
    have hrF : r ∈ measured.filter fun s => decide (0.1 < s.speed) :=
      List.mem_filter.2 ⟨hm, by simp only [decide_eq_true_eq]; exact hs⟩
    have hrS : r ∈ sortSpeedDesc (measured.filter fun s => decide (0.1 < s.speed)) :=
      (sortSpeedDesc_perm _).mem_iff.2 hrF
    have hrQ : r ∈ (sortSpeedDesc (measured.filter fun s => decide (0.1 < s.speed))).filter
        fun s => decide (target ≤ s.speed) :=
      List.mem_filter.2 ⟨hrS, by simp only [decide_eq_true_eq]; exact ht⟩
    simp only [Scanner.selectFinal]
    split
    · exact List.mem_append.2 (Or.inl hrQ)
    · exact hrQ
  · intro hge
    simp only [Scanner.selectFinal]
    rw [if_neg (by omega)]
    exact (sortSpeedDesc_perm _).filter _
  · intro hlt
    simp only [Scanner.selectFinal]
    rw [if_pos (by omega)]
    rw [hnotmem, hqlen]
  · exact sortSpeedDesc_sorted _

/-- C7 counterexample: a single probed candidate measuring 0.05 MB/s with
`min_speed_target = 5`: the claim's policy backfills it into the final set
(no candidate qualifies and the probed candidates are not exhausted), but
the code's selection is empty — candidates at or below 0.1 MB/s are
excluded even from the backfill. -/
theorem C7_counterexample :
    Scanner.smart_speed_test [⟨Addr.v4 1, 10, 0, false⟩] (fun _ => 1/20) 5 = []
  ∧ specSelect (applySpeeds (fun _ => 1/20) 0 [⟨Addr.v4 1, 10, 0, false⟩]) 5
      = [⟨Addr.v4 1, 10, 1/20, false⟩]
  ∧ ([] : List IpResult) ≠ [⟨Addr.v4 1, 10, 1/20, false⟩] := by
  have happ : applySpeeds (fun _ => 1/20) 0 [⟨Addr.v4 1, 10, 0, false⟩]
      = [⟨Addr.v4 1, 10, 1/20, false⟩] := by
    simp [applySpeeds]
  have hd1 : decide ((0.1 : ℚ) < 20⁻¹) = false := by
    simp only [decide_eq_false_iff_not]
    norm_num
  have hd2 : decide ((5 : ℚ) ≤ 20⁻¹) = false := by
    simp only [decide_eq_false_iff_not]
    norm_num
  refine ⟨?_, ?_, by simp⟩
  · unfold Scanner.smart_speed_test
    rw [happ]
    simp [Scanner.selectFinal, List.filter, hd1, sortSpeedDesc]
  · rw [happ]
    simp [specSelect, sortSpeedDesc, insertSpeedDesc, List.filter, hd2]

/-- Witness for C7 (amended): a probed candidate measuring 7 MB/s against
`min_speed_target = 5` is selected. -/
theorem C7_witness :
    (⟨Addr.v4 1, 10, 7, false⟩ : IpResult)
      ∈ Scanner.selectFinal [⟨Addr.v4 1, 10, 7, false⟩] 5 :=
  (C7_selection_amended [⟨Addr.v4 1, 10, 7, false⟩] 5).1
    ⟨Addr.v4 1, 10, 7, false⟩ (List.mem_singleton.2 rfl) (by norm_num) (by norm_num)

/-- C10: every result in the final Stage-2 selection — the list that is
printed, logged and written to `result.csv` — has measured throughput
strictly greater than 0.1 MB/s; a candidate probing at 0.1 MB/s or less
(including failed probes, which yield 0) never appears, even via the
backfill, because the `s > 0.1` filter runs before selection. -/
theorem C10_final_throughput (cands : List IpResult) (http : ℕ → ℚ) (target : ℚ) :
    ∀ r ∈ Scanner.smart_speed_test cands http target, 0.1 < r.speed :=
  fun r hr => (selectFinal_subset (applySpeeds http 0 cands) target r hr).2

/-- Witness for C10: the 7 MB/s candidate selected by the concrete Stage-2
run indeed has throughput above 0.1. -/
theorem C10_witness :
    (0.1 : ℚ) < (IpResult.mk (Addr.v4 1) 10 7 false).speed :=
  C10_final_throughput [⟨Addr.v4 1, 10, 0, false⟩] (fun _ => 7) 5
    ⟨Addr.v4 1, 10, 7, false⟩ (by
      have happ : applySpeeds (fun _ => 7) 0 [⟨Addr.v4 1, 10, 0, false⟩]
          = [⟨Addr.v4 1, 10, 7, false⟩] := by simp [applySpeeds]
      have hd1 : decide ((0.1 : ℚ) < (7 : ℚ)) = true := by
        simp only [decide_eq_true_eq]; norm_num
      have hd2 : decide ((5 : ℚ) ≤ (7 : ℚ)) = true := by
        simp only [decide_eq_true_eq]; norm_num
      unfold Scanner.smart_speed_test
      rw [happ]
      simp [Scanner.selectFinal, List.filter, hd1, hd2, sortSpeedDesc, insertSpeedDesc])
